import Mathlib

/-!
Verification of the core of the Wordle solver (`wordle.py`): the feedback
evaluator `evaluate_guess`, the feedback codec (`feedback_string_to_list`,
`format_feedback`), the candidate filter `filter_candidates`, and the guess
selector `pick_smart`.  Words are modelled as lists of characters, feedback
classifications as lists of naturals (2 = EXACT/green, 1 = PRESENT/yellow,
0 = ABSENT/gray), and Python exceptions as `none` results.
-/

set_option autoImplicit false

namespace Wordle

/-- Words are character sequences; the callers guarantee length 5. -/
abbrev Word := List Char

/-- First pass of `evaluate_guess`: walking guess and secret in lockstep,
mark greens (2) and consume the matching secret slot (`none`); every other
position gets feedback 0 and keeps its secret character available (`some`). -/
def pass1 : List Char → List Char → List Nat × List (Option Char)
  | g :: gs, s :: ss =>
    let r := pass1 gs ss
    if g = s then (2 :: r.1, none :: r.2) else (0 :: r.1, some s :: r.2)
  | _, _ => ([], [])

/-- Model of `secret_chars[secret_chars.index(c)] = None`: blank out the first
remaining occurrence of `c` in the slot list. -/
def consume (c : Char) : List (Option Char) → List (Option Char)
  | [] => []
  | o :: os => if o = some c then none :: os else o :: consume c os

/-- Second pass of `evaluate_guess`: positions still marked 0 whose guess
letter survives among the unconsumed secret slots become yellow (1), consuming
the first matching slot. -/
def pass2 : List Char → List Nat → List (Option Char) → List Nat
  | g :: gs, f :: fs, sc =>
    if f = 0 ∧ some g ∈ sc then 1 :: pass2 gs fs (consume g sc)
    else f :: pass2 gs fs sc
  | _, fs, _ => fs

/-- The two-pass consume-once feedback evaluator (`evaluate_guess`). -/
def evaluate_guess (guess secret : Word) : List Nat :=
  pass2 guess (pass1 guess secret).1 (pass1 guess secret).2

/-- Strip surrounding whitespace, as Python's `str.strip()`. -/
def strip (s : List Char) : List Char :=
  ((s.dropWhile Char.isWhitespace).reverse.dropWhile Char.isWhitespace).reverse

/-- Lowercase every character, as Python's `str.lower()`. -/
def lower (s : List Char) : List Char := s.map Char.toLower

/-- The decoder's symbol table `{"g":2, "y":1, "b":0}`. -/
def sym_to_int (ch : Char) : Nat := if ch = 'g' then 2 else if ch = 'y' then 1 else 0

/-- Feedback decoder `feedback_string_to_list`: normalize (strip + lower),
validate (length 5, alphabet g/y/b), then map each symbol; `none` models the
raised `ValueError`. -/
def feedback_string_to_list (raw : List Char) : Option (List Nat) :=
  let fb := lower (strip raw)
  if fb.length = 5 ∧ fb.all (fun ch => ch == 'g' || ch == 'y' || ch == 'b') then
    some (fb.map sym_to_int)
  else none

/-- Display encoder `format_feedback`: emoji per class, then the guess in
parentheses. -/
def format_feedback (guess : Word) (feedback : List Nat) : List Char :=
  (feedback.map (fun f => if f = 2 then '🟩' else if f = 1 then '🟨' else '⬜'))
    ++ "   (".data ++ guess ++ ")".data

/-- Candidate filter `filter_candidates`: keep the words that would have
produced exactly the observed feedback for the last guess. -/
def filter_candidates (cands : List Word) (last_guess : Word) (last_fb : List Nat) :
    List Word :=
  cands.filter (fun w => evaluate_guess last_guess w == last_fb)

/-- The vowel alphabet of `pick_smart`. -/
def VOWELS : List Char := ['a', 'e', 'i', 'o', 'u']

/-- Number of vowel occurrences in a word (`sum(1 for ch in w if ch in VOWELS)`). -/
def vowel_count (w : Word) : Nat := w.countP (fun ch => VOWELS.contains ch)

/-- The maximum vowel count over the pool (`max(count for count, _ in vowel_counts)`);
meaningful only for non-empty pools, where the Python `max` does not raise. -/
def max_vowel (cands : List Word) : Nat := (cands.map vowel_count).foldl max 0

/-- The vowel-heavy subset `[w for count, w in vowel_counts if count == max_vowel]`. -/
def vowel_heavy (cands : List Word) : List Word :=
  ((cands.map (fun w => (vowel_count w, w))).filter
    (fun p => p.1 == max_vowel cands)).map Prod.snd

/-- Position-frequency table over the pool: `freq cands i ch` counts the pool
words carrying `ch` at position `i` (the `freq[i][ch] += 1` loop). -/
def freq (cands : List Word) (i : Nat) (ch : Char) : Nat :=
  cands.countP (fun w => w.get? i == some ch)

/-- Scoring scan of `pick_smart`: positions left to right from index `i`,
skipping letters already in `seen`, crediting `f` position-by-letter. -/
def score_word (f : Nat → Char → Nat) : Nat → List Char → List Char → Nat
  | _, [], _ => 0
  | i, ch :: rest, seen =>
    if ch ∈ seen then score_word f (i + 1) rest seen
    else f i ch + score_word f (i + 1) rest (ch :: seen)

/-- Score of a word against the pool's frequency table, deduplicated by letter. -/
def score (cands : List Word) (w : Word) : Nat := score_word (freq cands) 0 w []

/-- The best-word loop of `pick_smart`: running best score (starting at -1) and
running best word, updated on strictly greater scores only. -/
def best_loop (sc : Word → Nat) : List Word → Int → Word → Word
  | [], _, best => best
  | w :: ws, bs, best =>
    if (sc w : Int) > bs then best_loop sc ws (sc w) w else best_loop sc ws bs best

/-- Guess selector `pick_smart`: `none` models the `ValueError` that Python's
`max` raises on an empty pool (and the `IndexError` on an impossible empty
vowel-heavy subset); a singleton vowel-heavy subset is returned directly;
otherwise the tie-break loop runs over the whole vowel-heavy subset starting
from best score -1. -/
def pick_smart (cands : List Word) : Option Word :=
  if cands = [] then none
  else
    match vowel_heavy cands with
    | [] => none
    | [w] => some w
    | w0 :: w1 :: rest => some (best_loop (score cands) (w0 :: w1 :: rest) (-1) w0)

/-- Modelled from the spec ("Return the vowel-heavy word with the strictly
highest score; on ties, return the first such word encountered"): the first
element attaining the maximum value of `sc`. -/
def spec_first_max (sc : Word → Nat) : List Word → Option Word
  | [] => none
  | w :: ws =>
    match spec_first_max sc ws with
    | none => some w
    | some v => if sc w < sc v then some v else some w

/-- Modelled from the spec ("sum table[position][letter] over its 5 positions,
... skipping a position's contribution if that letter was already credited
earlier in the same word"): sum over the word's positions, a position
contributing nothing when its letter already occurs in the strictly earlier
prefix, and the table being built over the entire pool. -/
def spec_score (cands : List Word) (w : Word) : Nat :=
  ∑ j ∈ Finset.range w.length,
    if w.getD j ' ' ∈ w.take j then 0 else freq cands j (w.getD j ' ')

/-- Modelled from the spec: an encoder for Contract A that uses the decoder's
symbol alphabet (EXACT→'g', PRESENT→'y', ABSENT→'b'); the source has no such
function (its `format_feedback` emits emoji plus the guess). -/
def encode_gyb (c : List Nat) : List Char :=
  c.map (fun f => if f = 2 then 'g' else if f = 1 then 'y' else 'b')

/-- Number of guess positions holding letter `L` that the feedback classifies
EXACT (2) or PRESENT (1), walking guess and feedback in lockstep. -/
def hit_count (L : Char) (g : List Char) (fb : List Nat) : Nat :=
  (g.zip fb).countP (fun p => p.1 == L && (p.2 == 1 || p.2 == 2))

/-- Concrete two-word pool with tied vowel counts, used to instantiate the
selector theorems. -/
def demo_pool : List Word := ["crane".data, "slate".data]

end Wordle

namespace Wordle

theorem filter_idem {p : Word → Bool} (l : List Word) :
    (l.filter p).filter p = l.filter p := by
  induction l with
  | nil => rfl
  | cons w ws ih =>
    by_cases h : p w
    · simp [List.filter_cons, h, ih]
    · simp [List.filter_cons, h, ih]

/-- C7: filtering with a fixed guess and feedback is idempotent: a second
application of `filter_candidates` to an already-filtered pool removes
nothing. -/
theorem filter_candidates_idempotent (cands : List Word) (g : Word) (fb : List Nat) :
    filter_candidates (filter_candidates cands g fb) g fb =
      filter_candidates cands g fb :=
  filter_idem cands

/-- C2: `filter_candidates` retains a word of the pool exactly when evaluating
the guess against it reproduces the observed feedback, and the output is a
sublist of the input pool (relative order preserved). -/
theorem filter_candidates_spec (cands : List Word) (g : Word) (fb : List Nat) :
    (∀ w, w ∈ filter_candidates cands g fb ↔ w ∈ cands ∧ evaluate_guess g w = fb)
    ∧ (filter_candidates cands g fb).Sublist cands := by
  constructor
  · intro w
    simp [filter_candidates, List.mem_filter]
  · exact List.filter_sublist cands

theorem pass1_self (w : List Char) :
    pass1 w w = (List.replicate w.length 2, List.replicate w.length none) := by
  induction w with
  | nil => rfl
  | cons ch t ih => simp [pass1, ih, List.replicate_succ]

theorem pass2_replicate_two (w : List Char) (sc : List (Option Char)) :
    pass2 w (List.replicate w.length 2) sc = List.replicate w.length 2 := by
  induction w generalizing sc with
  | nil => rfl
  | cons ch t ih => simp [pass2, List.replicate_succ, ih]

/-- C8: evaluating a word against itself classifies all five positions EXACT. -/
theorem evaluate_self_all_exact (w : Word) (h : w.length = 5) :
    evaluate_guess w w = [2, 2, 2, 2, 2] := by
  unfold evaluate_guess
  rw [pass1_self, pass2_replicate_two, h]
  rfl

theorem evaluate_self_all_exact_witness :
    ("crane".data.length = 5) ∧ evaluate_guess "crane".data "crane".data = [2, 2, 2, 2, 2] :=
  ⟨by decide, evaluate_self_all_exact "crane".data (by decide)⟩

/-- C5 counterexample: the claimed fixture for guess "speed" against secret
"erase" is wrong — the evaluator does not return
[PRESENT, ABSENT, PRESENT, ABSENT, ABSENT]. -/
theorem speed_erase_counterexample :
    evaluate_guess "speed".data "erase".data ≠ [1, 0, 1, 0, 0] := by decide

/-- C5 amended: evaluating guess "speed" against secret "erase" yields
[PRESENT, ABSENT, PRESENT, PRESENT, ABSENT] — the secret holds two e's, so
both guess e's are classified PRESENT. -/
theorem evaluate_speed_erase :
    evaluate_guess "speed".data "erase".data = [1, 0, 1, 1, 0] := by decide

end Wordle

namespace Wordle

theorem all_gyb_iff (l : List Char) :
    (l.all (fun ch => ch == 'g' || ch == 'y' || ch == 'b') = true) ↔
      ∀ ch ∈ l, ch = 'g' ∨ ch = 'y' ∨ ch = 'b' := by
  simp [List.all_eq_true, or_assoc]

/-- C4: the decoder fails (none, modelling the raised error) exactly when the
stripped, lowercased input does not consist of 5 characters over {g,y,b}; on
success it returns the full position-aligned length-5 classification; in
particular it fails on "ggyb", "ggybx" and the empty string. -/
theorem feedback_string_to_list_spec (raw : List Char) :
    (feedback_string_to_list raw = none ↔
      ¬((lower (strip raw)).length = 5 ∧
        ∀ ch ∈ lower (strip raw), ch = 'g' ∨ ch = 'y' ∨ ch = 'b'))
    ∧ (∀ l, feedback_string_to_list raw = some l →
        l.length = 5 ∧ l = (lower (strip raw)).map sym_to_int)
    ∧ feedback_string_to_list "ggyb".data = none
    ∧ feedback_string_to_list "ggybx".data = none
    ∧ feedback_string_to_list "".data = none := by
  refine ⟨?_, ?_, by decide, by decide, by decide⟩
  · rw [← all_gyb_iff (lower (strip raw))]
    simp only [feedback_string_to_list]
    split_ifs with h
    · exact iff_of_false id (fun hx => hx h)
    · exact iff_of_true rfl h
  · intro l hl
    simp only [feedback_string_to_list] at hl
    split_ifs at hl with h
    have hl' := Option.some.inj hl
    subst hl'
    exact ⟨by simp [h.1], rfl⟩

theorem dropWhile_eq_self_of {α} (p : α → Bool) (l : List α)
    (h : ∀ x ∈ l, p x = false) : l.dropWhile p = l := by
  cases l with
  | nil => rfl
  | cons a t =>
    have ha : p a = false := h a (List.mem_cons_self a t)
    simp [List.dropWhile_cons, ha]

theorem strip_eq_self (l : List Char) (h : ∀ x ∈ l, Char.isWhitespace x = false) :
    strip l = l := by
  unfold strip
  rw [dropWhile_eq_self_of _ _ h]
  rw [dropWhile_eq_self_of _ _ (fun x hx => h x (List.mem_reverse.mp hx))]
  exact List.reverse_reverse l

theorem map_eq_self {α} (f : α → α) (l : List α) (h : ∀ x ∈ l, f x = x) :
    l.map f = l := by
  induction l with
  | nil => rfl
  | cons a t ih =>
    simp only [List.map_cons, h a (List.mem_cons_self a t),
      ih (fun x hx => h x (List.mem_cons_of_mem a hx))]

theorem encode_gyb_mem (c : List Nat) (x : Char) (hx : x ∈ encode_gyb c) :
    x = 'g' ∨ x = 'y' ∨ x = 'b' := by
  unfold encode_gyb at hx
  obtain ⟨f, _, rfl⟩ := List.mem_map.mp hx
  split_ifs <;> simp

theorem encode_gyb_decode_list (c : List Nat) (hv : ∀ x ∈ c, x = 0 ∨ x = 1 ∨ x = 2) :
    (encode_gyb c).map sym_to_int = c := by
  induction c with
  | nil => rfl
  | cons a t ih =>
    have ha := hv a (List.mem_cons_self a t)
    have ht := ih (fun x hx => hv x (List.mem_cons_of_mem a hx))
    rcases ha with h | h | h <;> subst h <;>
      simp [encode_gyb, sym_to_int, List.map_cons] at * <;> exact ht

/-- C6 counterexample: the round trip through the code's own encoder fails —
`format_feedback` emits emoji plus the guess, which `feedback_string_to_list`
rejects, so decoding its output of classification [2,1,0,2,1] does not give
that classification back. -/
theorem format_decode_counterexample :
    feedback_string_to_list (format_feedback "crane".data [2, 1, 0, 2, 1]) ≠
      some [2, 1, 0, 2, 1] := by decide

/-- C6 amended: with an encoder over the decoder's own symbol alphabet
(EXACT→'g', PRESENT→'y', ABSENT→'b'), decoding the encoding of any valid
length-5 classification yields it back. -/
theorem decode_encode_gyb_roundtrip (c : List Nat) (h5 : c.length = 5)
    (hv : ∀ x ∈ c, x = 0 ∨ x = 1 ∨ x = 2) :
    feedback_string_to_list (encode_gyb c) = some c := by
  have hmem : ∀ x ∈ encode_gyb c, x = 'g' ∨ x = 'y' ∨ x = 'b' := encode_gyb_mem c
  have hws : ∀ x ∈ encode_gyb c, Char.isWhitespace x = false := by
    intro x hx
    rcases hmem x hx with h | h | h <;> subst h <;> decide
  have hlow : ∀ x ∈ encode_gyb c, Char.toLower x = x := by
    intro x hx
    rcases hmem x hx with h | h | h <;> subst h <;> decide
  have hlen : (encode_gyb c).length = 5 := by
    unfold encode_gyb
    rw [List.length_map, h5]
  simp only [feedback_string_to_list]
  rw [strip_eq_self _ hws]
  unfold lower
  rw [map_eq_self _ _ hlow]
  rw [if_pos ⟨hlen, (all_gyb_iff _).mpr hmem⟩]
  rw [encode_gyb_decode_list c hv]

theorem decode_encode_gyb_roundtrip_witness :
    (([2, 1, 0, 0, 2] : List Nat).length = 5)
    ∧ (∀ x ∈ ([2, 1, 0, 0, 2] : List Nat), x = 0 ∨ x = 1 ∨ x = 2)
    ∧ feedback_string_to_list (encode_gyb [2, 1, 0, 0, 2]) = some [2, 1, 0, 0, 2] :=
  ⟨by decide, by decide,
    decode_encode_gyb_roundtrip [2, 1, 0, 0, 2] (by decide) (by decide)⟩

theorem feedback_string_to_list_spec_witness :
    feedback_string_to_list "gybgy".data = some [2, 1, 0, 2, 1]
    ∧ (([2, 1, 0, 2, 1] : List Nat).length = 5
      ∧ ([2, 1, 0, 2, 1] : List Nat) = (lower (strip "gybgy".data)).map sym_to_int) :=
  ⟨by decide, (feedback_string_to_list_spec "gybgy".data).2.1 [2, 1, 0, 2, 1] (by decide)⟩

end Wordle

namespace Wordle

theorem hit_count_nil (L : Char) (fb : List Nat) : hit_count L [] fb = 0 := rfl

theorem hit_count_cons (L gc : Char) (x : Nat) (gt : List Char) (fb : List Nat) :
    hit_count L (gc :: gt) (x :: fb) =
      hit_count L gt fb + (if gc = L ∧ (x = 1 ∨ x = 2) then 1 else 0) := by
  simp [hit_count, List.countP_cons]

theorem pass1_cons_eq (gc sc : Char) (gt st : List Char) (hgs : gc = sc) :
    pass1 (gc :: gt) (sc :: st) = (2 :: (pass1 gt st).1, none :: (pass1 gt st).2) := by
  simp [pass1, hgs]

theorem pass1_cons_ne (gc sc : Char) (gt st : List Char) (hgs : ¬gc = sc) :
    pass1 (gc :: gt) (sc :: st) = (0 :: (pass1 gt st).1, some sc :: (pass1 gt st).2) := by
  simp [pass1, hgs]

theorem pass1_count (L : Char) (g s : List Char) (h : g.length = s.length) :
    hit_count L g (pass1 g s).1 + (pass1 g s).2.count (some L) = s.count L := by
  induction g generalizing s with
  | nil =>
    cases s with
    | nil => rfl
    | cons a t => exact absurd h (by simp)
  | cons gc gt ih =>
    cases s with
    | nil => exact absurd h (by simp)
    | cons sc st =>
      have h' : gt.length = st.length := by simpa using h
      have iht := ih st h'
      by_cases hgs : gc = sc
      · rw [pass1_cons_eq gc sc gt st hgs]
        subst hgs
        simp only [hit_count_cons, List.count_cons]
        by_cases hL : gc = L
        · simp only [hL]
          simp
          omega
        · simp [hL]
          omega
      · rw [pass1_cons_ne gc sc gt st hgs]
        simp only [hit_count_cons, List.count_cons]
        by_cases hL : sc = L
        · simp [hL]
          omega
        · have hne : ¬(sc == L) = true := by simpa using hL
          simp [hne]
          omega

theorem consume_count (L c : Char) (sc : List (Option Char)) (h : some c ∈ sc) :
    sc.count (some L) = (consume c sc).count (some L) + (if c = L then 1 else 0) := by
  induction sc with
  | nil => cases h
  | cons o os ih =>
    by_cases ho : o = some c
    · subst ho
      simp only [consume, if_pos rfl, List.count_cons]
      by_cases hL : c = L
      · simp [hL]
      · have hne : ¬(some c = some L) := fun hh => hL (Option.some.inj hh)
        simp [hL, hne]
    · have h' : some c ∈ os := by
        cases List.mem_cons.mp h with
        | inl hh => exact absurd hh.symm ho
        | inr hh => exact hh
      have iht := ih h'
      simp only [consume, if_neg ho, List.count_cons]
      omega

theorem pass2_hit_count (L : Char) (g : List Char) (fb : List Nat)
    (sc : List (Option Char)) :
    hit_count L g (pass2 g fb sc) ≤ hit_count L g fb + sc.count (some L) := by
  induction g generalizing fb sc with
  | nil => simp [hit_count, pass2]
  | cons gc gt ih =>
    cases fb with
    | nil => simp [hit_count, pass2]
    | cons f fs =>
      simp only [pass2]
      by_cases hc : f = 0 ∧ some gc ∈ sc
      · rw [if_pos hc]
        obtain ⟨hf, hmem⟩ := hc
        subst hf
        rw [hit_count_cons, hit_count_cons]
        have hcc := consume_count L gc sc hmem
        have iht := ih fs (consume gc sc)
        by_cases hL : gc = L
        · subst hL
          simp at hcc ⊢
          omega
        · simp [hL] at hcc ⊢
          omega
      · rw [if_neg hc]
        rw [hit_count_cons, hit_count_cons]
        have iht := ih fs sc
        omega

theorem hit_count_le_count (L : Char) (g : List Char) (fb : List Nat) :
    hit_count L g fb ≤ g.count L := by
  induction g generalizing fb with
  | nil => simp [hit_count]
  | cons gc gt ih =>
    cases fb with
    | nil => simp [hit_count]
    | cons f fs =>
      rw [hit_count_cons]
      have iht := ih fs
      simp only [List.count_cons]
      by_cases hL : gc = L
      · simp [hL]
        split_ifs <;> omega
      · simp [hL]
        omega

/-- C1: for length-5 guess and secret, the number of positions classified
EXACT or PRESENT whose guess letter is `L` never exceeds the occurrences of
`L` in the secret, nor the occurrences of `L` in the guess. -/
theorem evaluate_guess_letter_bound (g s : Word) (L : Char)
    (hg : g.length = 5) (hs : s.length = 5) :
    hit_count L g (evaluate_guess g s) ≤ s.count L
    ∧ hit_count L g (evaluate_guess g s) ≤ g.count L := by
  constructor
  · have h1 := pass1_count L g s (by rw [hg, hs])
    have h2 := pass2_hit_count L g (pass1 g s).1 (pass1 g s).2
    unfold evaluate_guess
    omega
  · exact hit_count_le_count L g (evaluate_guess g s)

theorem evaluate_guess_letter_bound_witness :
    ("speed".data.length = 5) ∧ ("erase".data.length = 5)
    ∧ hit_count 'e' "speed".data (evaluate_guess "speed".data "erase".data) ≤
        "erase".data.count 'e'
    ∧ hit_count 'e' "speed".data (evaluate_guess "speed".data "erase".data) ≤
        "speed".data.count 'e' :=
  ⟨by decide, by decide,
    (evaluate_guess_letter_bound "speed".data "erase".data 'e' (by decide) (by decide)).1,
    (evaluate_guess_letter_bound "speed".data "erase".data 'e' (by decide) (by decide)).2⟩

end Wordle

namespace Wordle

theorem foldl_max_init (l : List Nat) (a : Nat) : a ≤ l.foldl max a := by
  induction l generalizing a with
  | nil => exact Nat.le_refl a
  | cons b t ih => exact Nat.le_trans (Nat.le_max_left a b) (ih (max a b))

theorem foldl_max_le (l : List Nat) (a : Nat) : ∀ x ∈ l, x ≤ l.foldl max a := by
  induction l generalizing a with
  | nil => intro x hx; cases hx
  | cons b t ih =>
    intro x hx
    rcases List.mem_cons.mp hx with h1 | h1
    · subst h1
      exact Nat.le_trans (Nat.le_max_right a x) (foldl_max_init t (max a x))
    · exact ih (max a b) x h1

theorem foldl_max_mem (l : List Nat) (a : Nat) :
    l.foldl max a = a ∨ l.foldl max a ∈ l := by
  induction l generalizing a with
  | nil => exact Or.inl rfl
  | cons b t ih =>
    rcases ih (max a b) with h1 | h1
    · rcases max_choice a b with h2 | h2
      · exact Or.inl (by rw [List.foldl_cons, h1, h2])
      · refine Or.inr ?_
        rw [List.foldl_cons, h1, h2]
        exact List.mem_cons_self b t
    · exact Or.inr (List.mem_cons_of_mem b h1)

theorem max_vowel_mem (cands : List Word) (h : cands ≠ []) :
    ∃ w ∈ cands, vowel_count w = max_vowel cands := by
  rcases foldl_max_mem (cands.map vowel_count) 0 with h1 | h1
  · cases cands with
    | nil => exact absurd rfl h
    | cons c t =>
      refine ⟨c, List.mem_cons_self c t, ?_⟩
      have hle : vowel_count c ≤ max_vowel (c :: t) :=
        foldl_max_le ((c :: t).map vowel_count) 0 (vowel_count c) (by simp)
      have hze : max_vowel (c :: t) = 0 := h1
      omega
  · obtain ⟨w, hw, hv⟩ := List.mem_map.mp h1
    exact ⟨w, hw, hv⟩

theorem vowel_heavy_mem_iff (cands : List Word) (w : Word) :
    w ∈ vowel_heavy cands ↔ w ∈ cands ∧ vowel_count w = max_vowel cands := by
  simp only [vowel_heavy, List.mem_map, List.mem_filter]
  constructor
  · rintro ⟨p, ⟨⟨a, ha, rfl⟩, hp⟩, rfl⟩
    exact ⟨ha, by simpa using hp⟩
  · rintro ⟨hw, hv⟩
    exact ⟨(vowel_count w, w), ⟨⟨w, hw, rfl⟩, by simpa using hv⟩, rfl⟩

theorem vowel_heavy_ne_nil (cands : List Word) (h : cands ≠ []) :
    vowel_heavy cands ≠ [] := by
  obtain ⟨w, hw, hv⟩ := max_vowel_mem cands h
  intro hnil
  have hmem : w ∈ vowel_heavy cands := (vowel_heavy_mem_iff cands w).mpr ⟨hw, hv⟩
  rw [hnil] at hmem
  cases hmem

theorem best_loop_mem (sc : Word → Nat) (ls : List Word) (bs : Int) (best : Word) :
    best_loop sc ls bs best ∈ best :: ls := by
  induction ls generalizing bs best with
  | nil => simp [best_loop]
  | cons w ws ih =>
    simp only [best_loop]
    split_ifs with h
    · have hm := ih (sc w) w
      simp only [List.mem_cons] at hm ⊢
      tauto
    · have hm := ih bs best
      simp only [List.mem_cons] at hm ⊢
      tauto

/-- C9: on a non-empty pool the selector returns a member of the pool; in
particular on a singleton pool it returns that word. -/
theorem pick_smart_mem (cands : List Word) (h : cands ≠ []) :
    (∃ w, pick_smart cands = some w ∧ w ∈ cands)
    ∧ (∀ v : Word, pick_smart [v] = some v) := by
  constructor
  · have hvh := vowel_heavy_ne_nil cands h
    cases hv : vowel_heavy cands with
    | nil => exact absurd hv hvh
    | cons w0 tl =>
      cases tl with
      | nil =>
        refine ⟨w0, by simp [pick_smart, h, hv], ?_⟩
        exact ((vowel_heavy_mem_iff cands w0).mp (by rw [hv]; exact List.mem_cons_self w0 [])).1
      | cons w1 rest =>
        refine ⟨best_loop (score cands) (w0 :: w1 :: rest) (-1) w0,
          by simp [pick_smart, h, hv], ?_⟩
        have hm := best_loop_mem (score cands) (w0 :: w1 :: rest) (-1) w0
        have hmem : best_loop (score cands) (w0 :: w1 :: rest) (-1) w0 ∈ vowel_heavy cands := by
          rw [hv]
          rcases List.mem_cons.mp hm with h1 | h1
          · rw [h1]; exact List.mem_cons_self w0 (w1 :: rest)
          · exact h1
        exact ((vowel_heavy_mem_iff cands _).mp hmem).1
  · intro v
    have hvh : vowel_heavy [v] = [v] := by
      simp [vowel_heavy, max_vowel]
    simp [pick_smart, hvh]

theorem pick_smart_mem_witness :
    (demo_pool ≠ []) ∧ (∃ w, pick_smart demo_pool = some w ∧ w ∈ demo_pool) :=
  ⟨by decide, (pick_smart_mem demo_pool (by decide)).1⟩

/-- C10: on an empty pool the selector fails (`none`, modelling the
`ValueError` Python's `max` raises on an empty sequence) rather than
returning a word; on any non-empty pool it returns a word, so the failure
is unreachable there. -/
theorem pick_smart_empty_none :
    pick_smart ([] : List Word) = none
    ∧ ∀ cands : List Word, cands ≠ [] → ∃ w, pick_smart cands = some w := by
  constructor
  · rfl
  · intro cands h
    have hvh := vowel_heavy_ne_nil cands h
    cases hv : vowel_heavy cands with
    | nil => exact absurd hv hvh
    | cons w0 tl =>
      cases tl with
      | nil => exact ⟨w0, by simp [pick_smart, h, hv]⟩
      | cons w1 rest =>
        exact ⟨best_loop (score cands) (w0 :: w1 :: rest) (-1) w0,
          by simp [pick_smart, h, hv]⟩

theorem pick_smart_empty_none_witness :
    pick_smart ([] : List Word) = none
    ∧ (["adieu".data] ≠ ([] : List Word))
    ∧ (∃ w, pick_smart ["adieu".data] = some w) :=
  ⟨pick_smart_empty_none.1, by decide,
    pick_smart_empty_none.2 ["adieu".data] (by decide)⟩

end Wordle

namespace Wordle

theorem spec_first_max_cons (sc : Word → Nat) (w : Word) (ws : List Word) :
    spec_first_max sc (w :: ws) =
      match spec_first_max sc ws with
      | none => some w
      | some v => if sc w < sc v then some v else some w := rfl

theorem score_word_eq_sum (f : Nat → Char → Nat) (rest : List Char) :
    ∀ (i : Nat) (seen : List Char),
      score_word f i rest seen =
        ∑ j ∈ Finset.range rest.length,
          if rest.getD j ' ' ∈ seen ∨ rest.getD j ' ' ∈ rest.take j then 0
          else f (i + j) (rest.getD j ' ') := by
  induction rest with
  | nil => intro i seen; simp [score_word]
  | cons ch t ih =>
    intro i seen
    rw [show (ch :: t).length = t.length + 1 from rfl, Finset.sum_range_succ']
    simp only [List.getD_cons_succ, List.take_succ_cons, List.getD_cons_zero,
      List.take_zero, List.not_mem_nil, or_false, Nat.add_zero]
    by_cases hch : ch ∈ seen
    · simp only [score_word, if_pos hch]
      rw [ih (i + 1) seen, Nat.add_zero]
      apply Finset.sum_congr rfl
      intro j hj
      have hiff : (t.getD j ' ' ∈ seen ∨ t.getD j ' ' ∈ ch :: t.take j) ↔
          (t.getD j ' ' ∈ seen ∨ t.getD j ' ' ∈ t.take j) := by
        simp only [List.mem_cons]
        constructor
        · rintro (hs | hc | hm)
          · exact Or.inl hs
          · exact Or.inl (by rw [hc]; exact hch)
          · exact Or.inr hm
        · rintro (hs | hm)
          · exact Or.inl hs
          · exact Or.inr (Or.inr hm)
      by_cases hm : t.getD j ' ' ∈ seen ∨ t.getD j ' ' ∈ t.take j
      · rw [if_pos hm, if_pos (hiff.mpr hm)]
      · rw [if_neg hm, if_neg (fun hx => hm (hiff.mp hx))]
        rw [show i + 1 + j = i + (j + 1) by omega]
    · simp only [score_word, if_neg hch]
      rw [ih (i + 1) (ch :: seen), add_comm]
      congr 1
      apply Finset.sum_congr rfl
      intro j hj
      have hiff : (t.getD j ' ' ∈ ch :: seen ∨ t.getD j ' ' ∈ t.take j) ↔
          (t.getD j ' ' ∈ seen ∨ t.getD j ' ' ∈ ch :: t.take j) := by
        simp only [List.mem_cons]
        tauto
      by_cases hm : t.getD j ' ' ∈ ch :: seen ∨ t.getD j ' ' ∈ t.take j
      · rw [if_pos hm, if_pos (hiff.mp hm)]
      · rw [if_neg hm, if_neg (fun hx => hm (hiff.mpr hx))]
        rw [show i + 1 + j = i + (j + 1) by omega]

theorem score_eq_spec_score (cands : List Word) (w : Word) :
    score cands w = spec_score cands w := by
  rw [score, score_word_eq_sum]
  unfold spec_score
  apply Finset.sum_congr rfl
  intro j hj
  simp

theorem best_loop_fm (sc : Word → Nat) (ls : List Word) :
    ∀ best : Word,
      best_loop sc ls ((sc best : Nat) : Int) best =
        match spec_first_max sc ls with
        | none => best
        | some v => if sc best < sc v then v else best := by
  induction ls with
  | nil => intro best; rfl
  | cons w ws ih =>
    intro best
    simp only [best_loop, spec_first_max_cons, gt_iff_lt, Nat.cast_lt]
    rw [ih w, ih best]
    cases hws : spec_first_max sc ws with
    | none => rfl
    | some v =>
      dsimp only
      by_cases h2 : sc w < sc v
      · rw [if_pos h2]
        rw [if_pos h2]
        dsimp only
        split_ifs <;> first | rfl | omega
      · rw [if_neg h2]
        rw [if_neg h2]
        dsimp only
        split_ifs <;> first | rfl | omega

theorem spec_first_max_eq_loop (sc : Word → Nat) (best : Word) (ls : List Word) :
    spec_first_max sc (best :: ls) = some (best_loop sc ls ((sc best : Nat) : Int) best) := by
  rw [spec_first_max_cons, best_loop_fm]
  cases spec_first_max sc ls with
  | none => rfl
  | some v =>
    dsimp only
    split_ifs <;> rfl

theorem spec_first_max_spec (sc : Word → Nat) (ls : List Word) (h : ls ≠ []) :
    ∃ pre post v, spec_first_max sc ls = some v ∧ ls = pre ++ v :: post
      ∧ (∀ u ∈ pre, sc u < sc v) ∧ (∀ u ∈ ls, sc u ≤ sc v) := by
  induction ls with
  | nil => exact absurd rfl h
  | cons w ws ih =>
    cases ws with
    | nil =>
      refine ⟨[], [], w, rfl, rfl, ?_, ?_⟩
      · intro u hu; cases hu
      · intro u hu
        rcases List.mem_cons.mp hu with h1 | h1
        · rw [h1]
        · cases h1
    | cons x xs =>
      obtain ⟨pre, post, v, hfm, hdecomp, hpre, hall⟩ := ih (by simp)
      rw [spec_first_max_cons, hfm]
      dsimp only
      by_cases h1 : sc w < sc v
      · rw [if_pos h1]
        refine ⟨w :: pre, post, v, rfl, by rw [List.cons_append, ← hdecomp], ?_, ?_⟩
        · intro u hu
          rcases List.mem_cons.mp hu with h2 | h2
          · rw [h2]; exact h1
          · exact hpre u h2
        · intro u hu
          rcases List.mem_cons.mp hu with h2 | h2
          · rw [h2]; exact Nat.le_of_lt h1
          · exact hall u h2
      · rw [if_neg h1]
        refine ⟨[], x :: xs, w, rfl, rfl, ?_, ?_⟩
        · intro u hu; cases hu
        · intro u hu
          rcases List.mem_cons.mp hu with h2 | h2
          · rw [h2]
          · exact Nat.le_trans (hall u h2) (Nat.le_of_not_lt h1)

end Wordle

namespace Wordle

/-- C3: with more than one word attaining the maximum vowel count, the
selector returns a vowel-heavy word whose spec score (position-frequency
table built over the entire pool, each letter credited once at its first
position) is maximal over the vowel-heavy subset, and it is the first such
word: every earlier vowel-heavy word scores strictly lower. -/
theorem pick_smart_tiebreak (cands : List Word)
    (h : 1 < (vowel_heavy cands).length) :
    ∃ pre post w, pick_smart cands = some w
      ∧ vowel_heavy cands = pre ++ w :: post
      ∧ (∀ v ∈ vowel_heavy cands, spec_score cands v ≤ spec_score cands w)
      ∧ (∀ v ∈ pre, spec_score cands v < spec_score cands w) := by
  have hc : cands ≠ [] := by
    intro hnil
    rw [hnil] at h
    simp [vowel_heavy] at h
  cases hv : vowel_heavy cands with
  | nil => rw [hv] at h; simp at h
  | cons w0 tl =>
    cases tl with
    | nil => rw [hv] at h; simp at h
    | cons w1 rest =>
      have hpick : pick_smart cands
          = some (best_loop (score cands) (w0 :: w1 :: rest) (-1) w0) := by
        simp [pick_smart, hc, hv]
      have hguard : ((-1 : Int) < (score cands w0 : Int)) :=
        lt_of_lt_of_le (by norm_num) (Int.natCast_nonneg _)
      have hstep : best_loop (score cands) (w0 :: w1 :: rest) (-1) w0
          = best_loop (score cands) (w1 :: rest) ((score cands w0 : Nat) : Int) w0 := by
        simp only [best_loop, gt_iff_lt]
        rw [if_pos hguard]
      obtain ⟨pre, post, v, hfm, hdecomp, hpre, hall⟩ :=
        spec_first_max_spec (score cands) (w0 :: w1 :: rest) (by simp)
      have hloop : spec_first_max (score cands) (w0 :: w1 :: rest)
          = some (best_loop (score cands) (w1 :: rest) ((score cands w0 : Nat) : Int) w0) :=
        spec_first_max_eq_loop (score cands) w0 (w1 :: rest)
      have hveq : v = best_loop (score cands) (w1 :: rest) ((score cands w0 : Nat) : Int) w0 :=
        Option.some.inj (hfm.symm.trans hloop)
      refine ⟨pre, post, v, ?_, ?_, ?_, ?_⟩
      · rw [hpick, hstep, hveq]
      · exact hdecomp
      · intro u hu
        have h2 := hall u hu
        rw [score_eq_spec_score, score_eq_spec_score] at h2
        exact h2
      · intro u hu
        have h2 := hpre u hu
        rw [score_eq_spec_score, score_eq_spec_score] at h2
        exact h2

theorem pick_smart_tiebreak_witness :
    (1 < (vowel_heavy demo_pool).length)
    ∧ (∃ pre post w, pick_smart demo_pool = some w
        ∧ vowel_heavy demo_pool = pre ++ w :: post
        ∧ (∀ v ∈ vowel_heavy demo_pool, spec_score demo_pool v ≤ spec_score demo_pool w)
        ∧ (∀ v ∈ pre, spec_score demo_pool v < spec_score demo_pool w)) :=
  ⟨by decide, pick_smart_tiebreak demo_pool (by decide)⟩

end Wordle
